import Mathlib

/-!
Verification of the fuzzy record-matching engine of the PO-Box project.

The TypeScript sources contain two relevant engine variants:

* the compact variant (`src/app/page.tsx`, `src/unnamed/part_000`): a
  whitespace-removing `normalizeString`, `calculateSimilarity` and
  `findBestSubstring`;
* the street-number-aware variant (`src/unnamed/part_001`): a
  space/hyphen-preserving `normalizeString`, the same similarity scorer,
  `removeAddressSuffixes`, `findBestMatch` and `findMatches`.

JavaScript strings are modelled as `List Char`; numeric scores as `ℚ`
(the source uses IEEE doubles, but every constant and threshold involved
is an exact decimal fraction, so rational arithmetic matches the
comparisons performed by the code on the inputs considered here).
`String.prototype.toLowerCase` is modelled by ASCII lowercasing, which is
exact on the Latin/digit/CJK alphabet the engine manipulates.
-/

attribute [local semireducible] Rat.mul Rat.add Rat.sub Rat.inv Rat.ofScientific

/-- Characters matched by the JavaScript regex class `\s` (whitespace). -/
def isJsSpace (c : Char) : Bool :=
  decide ((9 ≤ c.toNat ∧ c.toNat ≤ 13) ∨ c.toNat = 32 ∨ c.toNat = 0xa0 ∨
    c.toNat = 0x1680 ∨ (0x2000 ≤ c.toNat ∧ c.toNat ≤ 0x200a) ∨ c.toNat = 0x2028 ∨
    c.toNat = 0x2029 ∨ c.toNat = 0x202f ∨ c.toNat = 0x205f ∨ c.toNat = 0x3000 ∨
    c.toNat = 0xfeff)

/-- ASCII model of `String.prototype.toLowerCase`: maps `A`-`Z` (code points
65-90) to `a`-`z` and leaves every other character unchanged. -/
def jsToLower (c : Char) : Char :=
  if 65 ≤ c.toNat ∧ c.toNat ≤ 90 then Char.ofNat (c.toNat + 32) else c

/-- Characters matched by the JavaScript regex class `\w`:
Latin letters, decimal digits and the underscore. -/
def isWordChar (c : Char) : Bool :=
  decide ((97 ≤ c.toNat ∧ c.toNat ≤ 122) ∨ (65 ≤ c.toNat ∧ c.toNat ≤ 90) ∨
    (48 ≤ c.toNat ∧ c.toNat ≤ 57) ∨ c.toNat = 95)

/-- Characters matched by the JavaScript regex class `\d`. -/
def isAsciiDigit (c : Char) : Bool :=
  decide (48 ≤ c.toNat ∧ c.toNat ≤ 57)

/-- Characters in the CJK range `一`-`鿿` used by both normalizers. -/
def isCJK (c : Char) : Bool :=
  decide (0x4e00 ≤ c.toNat ∧ c.toNat ≤ 0x9fff)

/-- Characters kept by the compact normalizer's final filter
`replace(/[^\w一-鿿]/g, '')`. -/
def keepCompact (c : Char) : Bool :=
  isWordChar c || isCJK c

/-- Characters kept by the spaced normalizer's final filter
`replace(/[^\w\s一-鿿-]/g, '')`. -/
def keepSpaced (c : Char) : Bool :=
  isWordChar c || isJsSpace c || isCJK c || c = '-'

/-- Remove trailing JavaScript whitespace. -/
def dropTrailingWs (s : List Char) : List Char :=
  (s.reverse.dropWhile isJsSpace).reverse

/-- Model of `String.prototype.trim`: strip leading and trailing whitespace. -/
def jsTrim (s : List Char) : List Char :=
  dropTrailingWs (s.dropWhile isJsSpace)

/-- Worker for `collapseWs`; the flag records whether the previous character
was whitespace (so that a whole run contributes a single space). -/
def collapseGo : Bool → List Char → List Char
  | _, [] => []
  | prevWs, c :: cs =>
    if isJsSpace c then
      if prevWs then collapseGo true cs else ' ' :: collapseGo true cs
    else c :: collapseGo false cs

/-- Model of `replace(/\s+/g, ' ')`: every maximal whitespace run becomes one
space. -/
def collapseWs (s : List Char) : List Char :=
  collapseGo false s

/-- Model of `String.prototype.split(' ')`: chunks between single-space
separators, keeping empty chunks (as JavaScript does). -/
def splitSpace : List Char → List (List Char)
  | [] => [[]]
  | c :: cs =>
    if c = ' ' then [] :: splitSpace cs
    else
      match splitSpace cs with
      | w :: ws => (c :: w) :: ws
      | [] => [[c]]

/-- Index of the first occurrence of `needle` in `hay`
(model of `String.prototype.indexOf`), `none` when absent. -/
def firstOccur (needle : List Char) : List Char → Option Nat
  | [] => if needle = [] then some 0 else none
  | c :: rest =>
    if needle.isPrefixOf (c :: rest) then some 0
    else (firstOccur needle rest).map (· + 1)

/-- Model of `hay.includes(needle)`. -/
def jsIncludes (hay needle : List Char) : Bool :=
  (firstOccur needle hay).isSome

/-- Specification-side notion of a contiguous substring. -/
def isSubstringOf (needle hay : List Char) : Prop :=
  ∃ pre post, hay = pre ++ needle ++ post

/-- Inner loop of one row of the Levenshtein matrix.  `cs` is the remaining
suffix of `str1`, `rest` the previous row from the current column upward (so
its head is the `matrix[j-1][i]` cell), `diag` the `matrix[j-1][i-1]` cell and
`left` the freshly computed `matrix[j][i-1]` cell. -/
def levRowAux (c2 : Char) : List Char → List Nat → Nat → Nat → List Nat
  | [], _, _, _ => []
  | _ :: _, [], _, _ => []
  | c1 :: cs, up :: rest, diag, left =>
    let e := if c1 = c2 then diag else 1 + min (min up left) diag
    e :: levRowAux c2 cs rest up e

/-- Row `j` of the Levenshtein matrix computed from row `j - 1`:
`matrix[j][0] = j`, then the standard cell recurrence. -/
def levNextRow (c2 : Char) (s1 : List Char) (prev : List Nat) (j : Nat) : List Nat :=
  match prev with
  | [] => [j]
  | p0 :: rest => j :: levRowAux c2 s1 rest p0 j

/-- Fold the rows of the matrix over the characters of `str2`. -/
def levLoop (s1 : List Char) : List Char → List Nat → Nat → List Nat
  | [], row, _ => row
  | c2 :: cs2, row, j => levLoop s1 cs2 (levNextRow c2 s1 row (j + 1)) (j + 1)

/-- The dynamic-programming Levenshtein distance of the source: row 0 is
`0, 1, …, str1.length`, each later row `j` starts with `j` and fills cell `i`
with `matrix[j-1][i-1]` on equal characters and otherwise
`1 + min(matrix[j-1][i], matrix[j][i-1], matrix[j-1][i-1])`; the result is
`matrix[str2.length][str1.length]`. -/
def calculateLevenshteinDistance (str1 str2 : List Char) : Nat :=
  (levLoop str1 str2 (List.range (str1.length + 1)) 0).getD str1.length 0

/-- The Levenshtein component of the similarity blend:
`maxLength === 0 ? 0 : 1 - distance / maxLength`. -/
def levenshteinSimilarityOf (clean1 clean2 : List Char) : ℚ :=
  let maxLength := max clean1.length clean2.length
  if maxLength = 0 then 0
  else 1 - (calculateLevenshteinDistance clean1 clean2 : ℚ) / (maxLength : ℚ)

/-- The Jaccard component of the similarity blend: character-set intersection
size over union size (`union.size === 0 ? 0 : ...`). -/
def jaccardSimilarityOf (clean1 clean2 : List Char) : ℚ :=
  let inter := clean1.toFinset ∩ clean2.toFinset
  let union := clean1.toFinset ∪ clean2.toFinset
  if union.card = 0 then 0 else (inter.card : ℚ) / (union.card : ℚ)

/-- Body shared by both variants' `calculateSimilarity`, applied to the
already-normalized strings: empty check, equality, containment, 2-character
common prefix, then a 0.7/0.3 blend of Levenshtein and character-set Jaccard
similarity. -/
def similarityCore (clean1 clean2 : List Char) : ℚ :=
  if clean1 = [] ∨ clean2 = [] then 0
  else if clean1 = clean2 then 1
  else if jsIncludes clean1 clean2 || jsIncludes clean2 clean1 then 0.85
  else if 2 ≤ clean1.length ∧ 2 ≤ clean2.length ∧ clean1.take 2 = clean2.take 2 then 0.7
  else levenshteinSimilarityOf clean1 clean2 * 0.7 + jaccardSimilarityOf clean1 clean2 * 0.3

namespace Compact

/-- Compact normalizer of `src/app/page.tsx` / `src/unnamed/part_000`:
lowercase, trim, delete all whitespace, keep only `\w` and CJK characters. -/
def normalizeString (s : List Char) : List Char :=
  ((jsTrim (s.map jsToLower)).filter (fun c => !isJsSpace c)).filter keepCompact

/-- Compact-variant `calculateSimilarity`. -/
def calculateSimilarity (str1 str2 : List Char) : ℚ :=
  similarityCore (normalizeString str1) (normalizeString str2)

/-- Worker mirroring the index-mapping loop of `findBestSubstring`: walk the
original text, accumulating how many normalized characters each original
character contributed, and report the original index at which the
accumulated count equals the normalized match start. -/
def walkAux : List Char → Nat → Nat → Nat → Option Nat
  | [], _, _, _ => none
  | c :: rest, i, nIdx, start =>
    if nIdx = start then some i
    else walkAux rest (i + 1) (nIdx + (normalizeString [c]).length) start

/-- Compact-variant `findBestSubstring`: find the normalized target inside the
normalized text, map the start back to the original text, and return the slice
of the original text whose length is the normalized target's length. -/
def findBestSubstring (text target : List Char) : List Char :=
  let normalizedTarget := normalizeString target
  match firstOccur normalizedTarget (normalizeString text) with
  | some startIndex =>
    let originalStartIndex := (walkAux text 0 0 startIndex).getD 0
    (text.drop originalStartIndex).take normalizedTarget.length
  | none => []

end Compact

namespace Street

/-- Spaced normalizer of `src/unnamed/part_001`: lowercase, trim, collapse
whitespace runs to single spaces, keep `\w`, whitespace, CJK and hyphens. -/
def normalizeString (s : List Char) : List Char :=
  (collapseWs (jsTrim (s.map jsToLower))).filter keepSpaced

/-- Street-variant `calculateSimilarity`. -/
def calculateSimilarity (str1 str2 : List Char) : ℚ :=
  similarityCore (normalizeString str1) (normalizeString str2)

/-- The closed set of street-type suffix words dropped by
`removeAddressSuffixes`. -/
def suffixWords : List (List Char) :=
  [ "road".toList, "rd".toList, "street".toList, "st".toList,
    "avenue".toList, "ave".toList, "drive".toList, "dr".toList,
    "lane".toList, "ln".toList, "way".toList, "close".toList,
    "court".toList, "ct".toList, "place".toList, "pl".toList,
    "crescent".toList, "cres".toList, "terrace".toList, "tce".toList,
    "circuit".toList, "cct".toList, "boulevard".toList, "blvd".toList,
    "highway".toList, "hwy".toList, "esplanade".toList, "esp".toList,
    "parade".toList, "pde".toList, "grove".toList, "gr".toList,
    "walk".toList, "gardens".toList, "gdns".toList ]

/-- Model of `removeAddressSuffixes`: normalize, split into non-empty words,
and drop the final word when it is a known street-type suffix and more than
one word is present. -/
def removeAddressSuffixes (address : List Char) : List Char :=
  if address = [] then []
  else
    let normalized := normalizeString address
    let words := (splitSpace normalized).filter (fun w => 0 < w.length)
    if 1 < words.length ∧ words.getLastD [] ∈ suffixWords then
      List.intercalate [' '] words.dropLast
    else normalized

/-- Reference record as consumed by the street-number-aware matcher
(the `CSVRow` interface of `src/unnamed/part_001`). -/
structure CSVRow where
  name : List Char := []
  address : List Char := []
  email : List Char := []
  serviceDescription : List Char := []
  customerName : List Char := []
  streetNumber : List Char := []
  suburb : List Char := []
deriving DecidableEq

/-- Result triple of `findBestMatch`. -/
structure BestMatch where
  similarity : ℚ
  matchedFields : List (List Char)
  matchedSegment : List Char
deriving DecidableEq

/-- The result entry shape produced by `findMatches`
(the `MatchResult` interface of `src/unnamed/part_001`). -/
structure MatchResultT where
  row : CSVRow
  matchedFields : List (List Char)
  confidence : ℚ
  similarity : ℚ
  ocrText : List Char
  matchedSegment : List Char
deriving DecidableEq

/-- The single matched-field marker pushed on acceptance. -/
def streetAddressField : List Char := "streetAddress".toList

/-- Model of `ocrText.match(/^\d+/)?.[0] || ''`: the leading run of decimal
digits of the raw OCR text. -/
def ocrNumbersOf (ocrText : List Char) : List Char :=
  ocrText.takeWhile isAsciiDigit

/-- Model of `ocrText.replace(/^\d+\s*/, '').trim()`: drop a leading digit
run together with the whitespace that follows it, then trim. -/
def ocrAddressPart (ocrText : List Char) : List Char :=
  if ocrNumbersOf ocrText ≠ [] then
    jsTrim ((ocrText.dropWhile isAsciiDigit).dropWhile isJsSpace)
  else jsTrim ocrText

/-- Model of `csvRow.streetNumber ? csvRow.streetNumber.trim() : ''`. -/
def csvStreetNumberOf (row : CSVRow) : List Char :=
  if row.streetNumber ≠ [] then jsTrim row.streetNumber else []

/-- Model of `/^\d+$/.test(csvStreetNumber)`. -/
def isCSVNumberDigit (row : CSVRow) : Prop :=
  csvStreetNumberOf row ≠ [] ∧ (csvStreetNumberOf row).all isAsciiDigit = true

instance (row : CSVRow) : Decidable (isCSVNumberDigit row) := by
  unfold isCSVNumberDigit; infer_instance

/-- Model of the full CSV address
`csvRow.streetNumber ? (streetNumber + ' ' + address).trim() : address`. -/
def csvFullAddressOf (row : CSVRow) : List Char :=
  if row.streetNumber ≠ [] then jsTrim (row.streetNumber ++ ' ' :: row.address)
  else row.address

/-- Step 3 of `findBestMatch`: the street-number / street-prefix score. -/
def numberMatchScore (ocrText : List Char) (row : CSVRow) : ℚ :=
  let ocrNumbers := ocrNumbersOf ocrText
  let csvSN := csvStreetNumberOf row
  if ocrNumbers ≠ [] ∧ csvSN ≠ [] ∧ isCSVNumberDigit row then
    if ocrNumbers = csvSN then 1 else 0.1
  else if ocrNumbers ≠ [] ∧ csvSN ≠ [] ∧ ¬ isCSVNumberDigit row then 0.7
  else if ocrNumbers = [] ∧ csvSN ≠ [] ∧ ¬ isCSVNumberDigit row then
    let ocrNormalized := normalizeString ocrText
    let csvStreetNormalized := normalizeString csvSN
    let ocrWords := (splitSpace ocrNormalized).filter (fun w => decide (2 ≤ w.length))
    if (match ocrWords with
        | w :: _ => decide ((0.8 : ℚ) ≤ calculateSimilarity w csvStreetNormalized)
        | [] => false) then 0.95
    else if jsIncludes ocrNormalized csvStreetNormalized ∨
        jsIncludes csvStreetNormalized ocrNormalized then 0.8
    else 0.4
  else if ocrNumbers = [] ∧ csvSN = [] then 1
  else if ocrNumbers ≠ [] ∧ csvSN = [] then 0.5
  else 0.3

/-- Adjacent 2-word sequences of a word list (used for the sequence bonus). -/
def adjacentPairs (ws : List (List Char)) : List (List Char) :=
  (ws.zip ws.tail).map (fun p => p.1 ++ ' ' :: p.2)

/-- Number of (OCR pair, CSV pair) combinations whose similarity reaches 0.9;
each combination contributes one 0.3 bonus in the source's nested loops. -/
def seqBonusCount (ocrWords csvWords : List (List Char)) : Nat :=
  ((adjacentPairs ocrWords).map (fun op =>
    ((adjacentPairs csvWords).filter
      (fun cp => decide ((0.9 : ℚ) ≤ calculateSimilarity op cp))).length)).sum

/-- Number of OCR words having some CSV word with similarity at least 0.8. -/
def wordMatchedCount (ocrWords csvWords : List (List Char)) : Nat :=
  (ocrWords.filter (fun w =>
    csvWords.any (fun v => decide ((0.8 : ℚ) ≤ calculateSimilarity w v)))).length

/-- Word-level address score: matched-word ratio scaled by 0.85 plus the
sequence bonus, capped at 0.95; zero when there are no OCR words. -/
def wordLevelScore (ocrFiltered csvFiltered : List Char) : ℚ :=
  let ocrWords := (splitSpace ocrFiltered).filter (fun w => decide (2 ≤ w.length))
  let csvWords := (splitSpace csvFiltered).filter (fun w => decide (2 ≤ w.length))
  if 0 < ocrWords.length then
    min 0.95 (((wordMatchedCount ocrWords csvWords : ℚ) / (ocrWords.length : ℚ)) * 0.85
      + 0.3 * (seqBonusCount ocrWords csvWords : ℚ))
  else 0

/-- The string matched against the record address: the OCR remainder after the
leading number, or the whole OCR text when that remainder is empty. -/
def addressToMatchOf (ocrText : List Char) : List Char :=
  if ocrAddressPart ocrText ≠ [] then ocrAddressPart ocrText else ocrText

/-- Step 4 of `findBestMatch`: the address-body score (suffix-filtered
containment, word-level matching, and the unfiltered 0.7-scaled backup). -/
def addressMatchScore (ocrText : List Char) (row : CSVRow) : ℚ :=
  let addressToMatch := addressToMatchOf ocrText
  if addressToMatch = [] ∨ row.address = [] then 0
  else
    let ocrAddressFiltered := removeAddressSuffixes addressToMatch
    let csvAddressFiltered := removeAddressSuffixes row.address
    if jsIncludes csvAddressFiltered ocrAddressFiltered then 0.95
    else if jsIncludes ocrAddressFiltered csvAddressFiltered then 0.9
    else
      let w := wordLevelScore ocrAddressFiltered csvAddressFiltered
      if w < 0.6 then
        let backup := calculateSimilarity (normalizeString addressToMatch)
          (normalizeString row.address) * 0.7
        if w < backup then backup else w
      else w

/-- Step 5 of `findBestMatch`: the whole-string fallback score. -/
def fullMatchScore (ocrText : List Char) (row : CSVRow) : ℚ :=
  let ocrNormalized := normalizeString ocrText
  let csvFullAddressNormalized := normalizeString (csvFullAddressOf row)
  if ocrNormalized = [] ∨ csvFullAddressNormalized = [] then 0
  else if jsIncludes csvFullAddressNormalized ocrNormalized then 0.95
  else if jsIncludes ocrNormalized csvFullAddressNormalized then 0.9
  else calculateSimilarity ocrNormalized csvFullAddressNormalized * 0.8

/-- Step 6 of `findBestMatch`: the weighted composite similarity. -/
def compositeSimilarity (ocrText : List Char) (row : CSVRow) : ℚ :=
  numberMatchScore ocrText row * 0.4 + addressMatchScore ocrText row * 0.5
    + fullMatchScore ocrText row * 0.1

/-- Step 7 of `findBestMatch`: the case-by-case accept/reject decision with
its universal 0.75-composite fallback. -/
def isValidMatch (ocrText : List Char) (row : CSVRow) : Bool :=
  let num := numberMatchScore ocrText row
  let addr := addressMatchScore ocrText row
  let full := fullMatchScore ocrText row
  let best := compositeSimilarity ocrText row
  let ocrNumbers := ocrNumbersOf ocrText
  let csvSN := csvStreetNumberOf row
  let base : Bool :=
    if ocrNumbers ≠ [] ∧ csvSN ≠ [] ∧ isCSVNumberDigit row then
      decide (ocrNumbers = csvSN ∧ (0.7 : ℚ) ≤ addr)
    else if ocrNumbers ≠ [] ∧ csvSN ≠ [] ∧ ¬ isCSVNumberDigit row then
      decide ((0.8 : ℚ) ≤ addr)
    else if ocrNumbers = [] ∧ csvSN ≠ [] ∧ ¬ isCSVNumberDigit row then
      decide (((0.8 : ℚ) ≤ num ∧ (0.7 : ℚ) ≤ addr) ∨ (0.85 : ℚ) ≤ addr)
    else if ocrNumbers = [] ∧ csvSN = [] then
      decide ((0.85 : ℚ) ≤ addr ∨ (0.8 : ℚ) ≤ full)
    else
      decide ((0.7 : ℚ) ≤ best ∨ (0.9 : ℚ) ≤ addr)
  base || decide ((0.75 : ℚ) ≤ best)

/-- Street-variant `findBestMatch`: zero/empty for a record without an
address; otherwise the composite similarity, with `matchedFields =
["streetAddress"]` and the OCR text as matched segment exactly on
acceptance. -/
def findBestMatch (ocrText : List Char) (row : CSVRow) : BestMatch :=
  if row.address = [] then ⟨0, [], []⟩
  else if isValidMatch ocrText row then
    ⟨compositeSimilarity ocrText row, [streetAddressField], ocrText⟩
  else ⟨compositeSimilarity ocrText row, [], []⟩

/-- The match-result entry pushed by `findMatches` for an accepted record. -/
def mkMatchResult (conf : ℚ) (text : List Char) (row : CSVRow) : MatchResultT :=
  ⟨row, (findBestMatch text row).matchedFields, conf,
    (findBestMatch text row).similarity, text, (findBestMatch text row).matchedSegment⟩

/-- The unsorted list of accepted records (the `matches` array filled by the
`forEach` loop of `findMatches`): a record is kept exactly when its
`matchedFields` is non-empty. -/
def candidates (conf : ℚ) (text : List Char) (rows : List CSVRow) : List MatchResultT :=
  rows.filterMap (fun row =>
    if 0 < (findBestMatch text row).matchedFields.length then
      some (mkMatchResult conf text row)
    else none)

/-- Stable insertion into a descending-by-similarity list: an element passes
strictly greater similarities and lands before equal ones that were
originally later. -/
def insertDesc (x : MatchResultT) : List MatchResultT → List MatchResultT
  | [] => [x]
  | y :: ys => if x.similarity < y.similarity then y :: insertDesc x ys else x :: y :: ys

/-- Stable descending sort by similarity: the unique output of JavaScript's
stable `sort((a, b) => b.similarity - a.similarity)`. -/
def sortDesc : List MatchResultT → List MatchResultT
  | [] => []
  | x :: xs => insertDesc x (sortDesc xs)

/-- Street-variant `findMatches`: keep accepted records, sort by descending
similarity (stably) and truncate to the first 8. -/
def findMatches (conf : ℚ) (text : List Char) (rows : List CSVRow) : List MatchResultT :=
  (sortDesc (candidates conf text rows)).take 8

end Street

/-- Alphabet the specification allows in compact normalized output (lowercase
Latin letter, decimal digit, CJK ideograph), plus the underscore, which the
`\w` class also keeps. -/
def outAlphabetCompact (c : Char) : Prop :=
  (97 ≤ c.toNat ∧ c.toNat ≤ 122) ∨ (48 ≤ c.toNat ∧ c.toNat ≤ 57) ∨
    c.toNat = 95 ∨ (0x4e00 ≤ c.toNat ∧ c.toNat ≤ 0x9fff)

/-- Output alphabet of the spaced normalizer: the compact one plus the space
(code point 32) and the hyphen (code point 45). -/
def outAlphabetSpaced (c : Char) : Prop :=
  outAlphabetCompact c ∨ c.toNat = 32 ∨ c.toNat = 45

/-- Characters left unchanged by one application of the compact normalizer. -/
def stableChar (c : Char) : Prop :=
  Compact.normalizeString [c] = [c]

instance : DecidablePred stableChar := fun c => by
  unfold stableChar
  infer_instance

/-! Concrete inputs used by witnesses and counterexamples. -/

/-- Query text of the numeric-veto example. -/
def q12MainRoad : List Char := "12 Main Road".toList

/-- Record of the numeric-veto example: street number 34, address Main Road. -/
def row34MainRoad : Street.CSVRow :=
  { address := "Main Road".toList, streetNumber := "34".toList }

/-- Query text of the accepted exact case. -/
def qAlfCasey : List Char := "34 ALF CASEY ROAD".toList

/-- Record of the accepted exact case. -/
def rowAlfCasey : Street.CSVRow :=
  { address := "ALF CASEY ROAD".toList, streetNumber := "34".toList }

/-- Record with street number 12 at Main Road (accepted against
`q12MainRoad`). -/
def row12MainRoad : Street.CSVRow :=
  { address := "Main Road".toList, streetNumber := "12".toList }

/-- Record with an address but no street number. -/
def rowNoNumber : Street.CSVRow := { address := "Main Road".toList }

/-- A single-space query text. -/
def qOneSpace : List Char := " ".toList

/-- The string a dot, a space and the letter a. -/
def sDotSpaceA : List Char := ". a".toList

/-- The single-character string of an underscore. -/
def sUnderscore : List Char := "_".toList

/-- The single-character string of the letter x. -/
def sX : List Char := "x".toList

/-- The string main. -/
def sMain : List Char := "main".toList

/-- The string xmainy (contains main). -/
def sXMainY : List Char := "xmainy".toList

/-- The haystack of the substring-extraction counterexample. -/
def sASpaceB : List Char := "a b".toList

/-- The needle ab. -/
def sAB : List Char := "ab".toList

/-- The haystack xaby used by the substring-extraction witness. -/
def sXABY : List Char := "xaby".toList

/-- The single-character string of the letter a. -/
def sA : List Char := "a".toList

/-! Bounds on the Levenshtein dynamic program: every cell `matrix[j][i]` is at
most `max i j`, so the distance is at most the longer string's length. -/

theorem levRowAux_length (c2 : Char) :
    ∀ (cs : List Char) (rest : List Nat) (d l : Nat),
      (levRowAux c2 cs rest d l).length = min cs.length rest.length := by
  intro cs
  induction cs with
  | nil => intro rest d l; simp [levRowAux]
  | cons c1 cs ih =>
    intro rest d l
    cases rest with
    | nil => simp [levRowAux]
    | cons up rest => simp [levRowAux, ih, Nat.succ_min_succ]

theorem levRowAux_get_le (c2 : Char) :
    ∀ (cs : List Char) (rest : List Nat) (d l i0 j : Nat),
      (∀ k (h : k < rest.length), rest.get ⟨k, h⟩ ≤ max (i0 + 1 + k) j) →
      d ≤ max i0 j → l ≤ max i0 (j + 1) →
      ∀ k (h : k < (levRowAux c2 cs rest d l).length),
        (levRowAux c2 cs rest d l).get ⟨k, h⟩ ≤ max (i0 + 1 + k) (j + 1) := by
  intro cs
  induction cs with
  | nil => intro rest d l i0 j _ _ _ k h; simp [levRowAux] at h
  | cons c1 cs ih =>
    intro rest d l i0 j hrest hd hl k h
    cases rest with
    | nil => simp [levRowAux] at h
    | cons up rest =>
      have he : (if c1 = c2 then d else 1 + min (min up l) d) ≤ max (i0 + 1) (j + 1) := by
        split
        · exact le_trans hd (max_le_max (Nat.le_succ _) (Nat.le_succ _))
        · have : min (min up l) d ≤ d := Nat.min_le_right _ _
          have h2 : 1 + min (min up l) d ≤ 1 + max i0 j := by omega
          refine le_trans h2 ?_
          have : 1 + max i0 j = max (i0 + 1) (j + 1) := by
            rcases Nat.le_total i0 j with hij | hij <;> omega
          omega
      match k, h with
      | 0, h => simpa [levRowAux] using he
      | k + 1, h =>
        have h' : k < (levRowAux c2 cs rest up
            (if c1 = c2 then d else 1 + min (min up l) d)).length := by
          simpa [levRowAux] using h
        have hrest' : ∀ m (hm : m < rest.length),
            rest.get ⟨m, hm⟩ ≤ max (i0 + 1 + 1 + m) j := by
          intro m hm
          have := hrest (m + 1) (by simpa using Nat.succ_lt_succ hm)
          simpa [Nat.add_assoc, Nat.add_comm, Nat.add_left_comm] using this
        have hup : up ≤ max (i0 + 1) j := by
          have := hrest 0 (by simp)
          simpa using this
        have := ih rest up (if c1 = c2 then d else 1 + min (min up l) d)
          (i0 + 1) j hrest' hup he k h'
        have hgoal : (levRowAux c2 (c1 :: cs) (up :: rest) d l).get ⟨k + 1, h⟩ =
            (levRowAux c2 cs rest up
              (if c1 = c2 then d else 1 + min (min up l) d)).get ⟨k, h'⟩ := by
          simp [levRowAux]
        rw [hgoal]
        have harith : i0 + 1 + 1 + k = i0 + 1 + (k + 1) := by omega
        rw [harith] at this
        exact this

/-- Cell bound for one whole row: every entry at column `k` of row `j` is at
most `max k j`. -/
def RowBound (j : Nat) (row : List Nat) : Prop :=
  ∀ k (h : k < row.length), row.get ⟨k, h⟩ ≤ max k j

theorem levNextRow_length (c2 : Char) (s1 : List Char) (prev : List Nat) (j : Nat)
    (hlen : prev.length = s1.length + 1) :
    (levNextRow c2 s1 prev j).length = s1.length + 1 := by
  cases prev with
  | nil => simp at hlen
  | cons p0 rest =>
    have : rest.length = s1.length := by simpa using hlen
    simp [levNextRow, levRowAux_length, this]

theorem levNextRow_bound (c2 : Char) (s1 : List Char) (prev : List Nat) (j : Nat)
    (hlen : prev.length = s1.length + 1) (hb : RowBound j prev) :
    RowBound (j + 1) (levNextRow c2 s1 prev (j + 1)) := by
  cases prev with
  | nil => simp at hlen
  | cons p0 rest =>
    intro k h
    match k, h with
    | 0, h => simp [levNextRow]
    | k + 1, h =>
      have h' : k < (levRowAux c2 s1 rest p0 (j + 1)).length := by
        simpa [levNextRow] using h
      have hrest : ∀ m (hm : m < rest.length),
          rest.get ⟨m, hm⟩ ≤ max (0 + 1 + m) j := by
        intro m hm
        have := hb (m + 1) (by simpa using Nat.succ_lt_succ hm)
        simpa [Nat.add_comm] using this
      have hp0 : p0 ≤ max 0 j := by
        have := hb 0 (by simp)
        simpa using this
      have := levRowAux_get_le c2 s1 rest p0 (j + 1) 0 j hrest hp0 (by simp) k h'
      have hgoal : (levNextRow c2 s1 (p0 :: rest) (j + 1)).get ⟨k + 1, h⟩ =
          (levRowAux c2 s1 rest p0 (j + 1)).get ⟨k, h'⟩ := by
        simp [levNextRow]
      rw [hgoal]
      simpa [Nat.add_comm] using this

theorem levLoop_bound (s1 : List Char) :
    ∀ (cs2 : List Char) (row : List Nat) (j : Nat),
      row.length = s1.length + 1 → RowBound j row →
      (levLoop s1 cs2 row j).length = s1.length + 1 ∧
        RowBound (j + cs2.length) (levLoop s1 cs2 row j) := by
  intro cs2
  induction cs2 with
  | nil => intro row j hlen hb; simpa [levLoop] using ⟨hlen, hb⟩
  | cons c2 cs2 ih =>
    intro row j hlen hb
    have hlen' := levNextRow_length c2 s1 row (j + 1) hlen
    have hb' := levNextRow_bound c2 s1 row j hlen hb
    have := ih (levNextRow c2 s1 row (j + 1)) (j + 1) hlen' hb'
    constructor
    · simpa [levLoop] using this.1
    · have h2 := this.2
      have harith : j + 1 + cs2.length = j + (c2 :: cs2).length := by
        simp; omega
      rw [harith] at h2
      simpa [levLoop] using h2

theorem calculateLevenshteinDistance_le_max (s1 s2 : List Char) :
    calculateLevenshteinDistance s1 s2 ≤ max s1.length s2.length := by
  have h0 : RowBound 0 (List.range (s1.length + 1)) := by
    intro k h
    have hk : k < s1.length + 1 := by simpa using h
    simp [List.getElem_range]
  have := levLoop_bound s1 s2 (List.range (s1.length + 1)) 0 (by simp) h0
  obtain ⟨hlen, hb⟩ := this
  have hlt : s1.length < (levLoop s1 s2 (List.range (s1.length + 1)) 0).length := by
    rw [hlen]; omega
  have hget := hb s1.length hlt
  unfold calculateLevenshteinDistance
  rw [List.getD_eq_getElem _ _ hlt]
  simpa [List.get_eq_getElem] using hget

/-! Bounds on the similarity scorer. -/

theorem levenshteinSimilarityOf_nonneg (a b : List Char) :
    0 ≤ levenshteinSimilarityOf a b := by
  unfold levenshteinSimilarityOf
  dsimp only
  split_ifs with hm
  · norm_num
  · have hmpos : (0 : ℚ) < ((max a.length b.length : ℕ) : ℚ) := by
      have : 0 < max a.length b.length := Nat.pos_of_ne_zero hm
      exact_mod_cast this
    have hle : ((calculateLevenshteinDistance a b : ℕ) : ℚ) ≤
        ((max a.length b.length : ℕ) : ℚ) := by
      exact_mod_cast calculateLevenshteinDistance_le_max a b
    have := div_le_one_of_le₀ hle (le_of_lt hmpos)
    linarith

theorem levenshteinSimilarityOf_le_one (a b : List Char) :
    levenshteinSimilarityOf a b ≤ 1 := by
  unfold levenshteinSimilarityOf
  dsimp only
  split_ifs with hm
  · norm_num
  · have hd : (0 : ℚ) ≤ ((calculateLevenshteinDistance a b : ℕ) : ℚ) := by positivity
    have hmnn : (0 : ℚ) ≤ ((max a.length b.length : ℕ) : ℚ) := by positivity
    have := div_nonneg hd hmnn
    linarith

theorem jaccardSimilarityOf_nonneg (a b : List Char) : 0 ≤ jaccardSimilarityOf a b := by
  unfold jaccardSimilarityOf
  dsimp only
  split_ifs with hu
  · norm_num
  · positivity

theorem jaccardSimilarityOf_le_one (a b : List Char) : jaccardSimilarityOf a b ≤ 1 := by
  unfold jaccardSimilarityOf
  dsimp only
  split_ifs with hu
  · norm_num
  · have hsub : (a.toFinset ∩ b.toFinset).card ≤ (a.toFinset ∪ b.toFinset).card :=
      Finset.card_le_card Finset.inter_subset_union
    have hupos : (0 : ℚ) < (((a.toFinset ∪ b.toFinset).card : ℕ) : ℚ) := by
      have : 0 < (a.toFinset ∪ b.toFinset).card := Nat.pos_of_ne_zero hu
      exact_mod_cast this
    have hle : (((a.toFinset ∩ b.toFinset).card : ℕ) : ℚ) ≤
        (((a.toFinset ∪ b.toFinset).card : ℕ) : ℚ) := by exact_mod_cast hsub
    exact div_le_one_of_le₀ hle (le_of_lt hupos)

theorem similarityCore_nonneg (a b : List Char) : 0 ≤ similarityCore a b := by
  unfold similarityCore
  split_ifs with h1 h2 h3 h4
  · norm_num
  · norm_num
  · norm_num
  · norm_num
  · nlinarith [levenshteinSimilarityOf_nonneg a b, jaccardSimilarityOf_nonneg a b]

theorem similarityCore_le_one (a b : List Char) : similarityCore a b ≤ 1 := by
  unfold similarityCore
  split_ifs with h1 h2 h3 h4
  · norm_num
  · norm_num
  · norm_num
  · norm_num
  · nlinarith [levenshteinSimilarityOf_nonneg a b, jaccardSimilarityOf_nonneg a b,
      levenshteinSimilarityOf_le_one a b, jaccardSimilarityOf_le_one a b]

theorem Compact.calcSimCompact_nonneg (a b : List Char) :
    0 ≤ Compact.calculateSimilarity a b :=
  similarityCore_nonneg _ _

theorem Compact.calcSimCompact_le_one (a b : List Char) :
    Compact.calculateSimilarity a b ≤ 1 :=
  similarityCore_le_one _ _

theorem Street.calcSimStreet_nonneg (a b : List Char) :
    0 ≤ Street.calculateSimilarity a b :=
  similarityCore_nonneg _ _

theorem Street.calcSimStreet_le_one (a b : List Char) :
    Street.calculateSimilarity a b ≤ 1 :=
  similarityCore_le_one _ _

/-! Bounds on the per-field scores of the street-number-aware matcher. -/

namespace Street

theorem numberMatchScore_nonneg (ocrText : List Char) (row : CSVRow) :
    0 ≤ numberMatchScore ocrText row := by
  unfold numberMatchScore
  dsimp only
  split_ifs <;> norm_num

theorem numberMatchScore_le_one (ocrText : List Char) (row : CSVRow) :
    numberMatchScore ocrText row ≤ 1 := by
  unfold numberMatchScore
  dsimp only
  split_ifs <;> norm_num

theorem wordLevelScore_nonneg (ocrF csvF : List Char) : 0 ≤ wordLevelScore ocrF csvF := by
  unfold wordLevelScore
  dsimp only
  split_ifs with h
  · refine le_min (by norm_num) ?_
    have h1 : (0 : ℚ) ≤ (wordMatchedCount
        ((splitSpace ocrF).filter (fun w => decide (2 ≤ w.length)))
        ((splitSpace csvF).filter (fun w => decide (2 ≤ w.length))) : ℚ) := by positivity
    have h2 : (0 : ℚ) ≤ (((splitSpace ocrF).filter
        (fun w => decide (2 ≤ w.length))).length : ℚ) := by positivity
    have h3 : (0 : ℚ) ≤ (seqBonusCount
        ((splitSpace ocrF).filter (fun w => decide (2 ≤ w.length)))
        ((splitSpace csvF).filter (fun w => decide (2 ≤ w.length))) : ℚ) := by positivity
    have hdiv := div_nonneg h1 h2
    nlinarith
  · norm_num

theorem wordLevelScore_le (ocrF csvF : List Char) : wordLevelScore ocrF csvF ≤ 95/100 := by
  unfold wordLevelScore
  dsimp only
  split_ifs with h
  · exact le_trans (min_le_left _ _) (by norm_num)
  · norm_num

theorem addressMatchScore_nonneg (ocrText : List Char) (row : CSVRow) :
    0 ≤ addressMatchScore ocrText row := by
  unfold addressMatchScore
  dsimp only
  split_ifs with h1 h2 h3 h4 h5
  · norm_num
  · norm_num
  · norm_num
  · nlinarith [calcSimStreet_nonneg (normalizeString (addressToMatchOf ocrText))
      (normalizeString row.address)]
  · exact wordLevelScore_nonneg _ _
  · exact wordLevelScore_nonneg _ _

theorem addressMatchScore_le (ocrText : List Char) (row : CSVRow) :
    addressMatchScore ocrText row ≤ 95/100 := by
  unfold addressMatchScore
  dsimp only
  split_ifs with h1 h2 h3 h4 h5
  · norm_num
  · norm_num
  · norm_num
  · nlinarith [calcSimStreet_le_one (normalizeString (addressToMatchOf ocrText))
      (normalizeString row.address),
      calcSimStreet_nonneg (normalizeString (addressToMatchOf ocrText))
      (normalizeString row.address)]
  · exact wordLevelScore_le _ _
  · exact wordLevelScore_le _ _

theorem fullMatchScore_nonneg (ocrText : List Char) (row : CSVRow) :
    0 ≤ fullMatchScore ocrText row := by
  unfold fullMatchScore
  dsimp only
  split_ifs
  · norm_num
  · norm_num
  · norm_num
  · nlinarith [calcSimStreet_nonneg (normalizeString ocrText)
      (normalizeString (csvFullAddressOf row))]

theorem fullMatchScore_le (ocrText : List Char) (row : CSVRow) :
    fullMatchScore ocrText row ≤ 95/100 := by
  unfold fullMatchScore
  dsimp only
  split_ifs
  · norm_num
  · norm_num
  · norm_num
  · nlinarith [calcSimStreet_le_one (normalizeString ocrText)
      (normalizeString (csvFullAddressOf row)),
      calcSimStreet_nonneg (normalizeString ocrText)
      (normalizeString (csvFullAddressOf row))]

theorem compositeSimilarity_nonneg (ocrText : List Char) (row : CSVRow) :
    0 ≤ compositeSimilarity ocrText row := by
  unfold compositeSimilarity
  nlinarith [numberMatchScore_nonneg ocrText row, addressMatchScore_nonneg ocrText row,
    fullMatchScore_nonneg ocrText row]

theorem compositeSimilarity_le_one (ocrText : List Char) (row : CSVRow) :
    compositeSimilarity ocrText row ≤ 1 := by
  unfold compositeSimilarity
  nlinarith [numberMatchScore_le_one ocrText row, addressMatchScore_le ocrText row,
    fullMatchScore_le ocrText row, numberMatchScore_nonneg ocrText row,
    addressMatchScore_nonneg ocrText row, fullMatchScore_nonneg ocrText row]

theorem findBestMatch_similarity_nonneg (ocrText : List Char) (row : CSVRow) :
    0 ≤ (findBestMatch ocrText row).similarity := by
  unfold findBestMatch
  split_ifs
  · norm_num
  · exact compositeSimilarity_nonneg ocrText row
  · exact compositeSimilarity_nonneg ocrText row

theorem findBestMatch_similarity_le_one (ocrText : List Char) (row : CSVRow) :
    (findBestMatch ocrText row).similarity ≤ 1 := by
  unfold findBestMatch
  split_ifs
  · norm_num
  · exact compositeSimilarity_le_one ocrText row
  · exact compositeSimilarity_le_one ocrText row

end Street

/-! Membership, ordering and stability facts about the ranking engine. -/

namespace Street

theorem mem_insertDesc (m x : MatchResultT) (l : List MatchResultT) :
    m ∈ insertDesc x l ↔ m = x ∨ m ∈ l := by
  induction l with
  | nil => simp [insertDesc]
  | cons y ys ih =>
    unfold insertDesc
    split_ifs with h
    · simp [ih]; tauto
    · simp

theorem mem_sortDesc (m : MatchResultT) (l : List MatchResultT) :
    m ∈ sortDesc l ↔ m ∈ l := by
  induction l with
  | nil => simp [sortDesc]
  | cons x xs ih => simp [sortDesc, mem_insertDesc, ih]

theorem insertDesc_pairwise (x : MatchResultT) (l : List MatchResultT)
    (hl : l.Pairwise (fun a b => b.similarity ≤ a.similarity)) :
    (insertDesc x l).Pairwise (fun a b => b.similarity ≤ a.similarity) := by
  induction l with
  | nil => simp [insertDesc]
  | cons y ys ih =>
    unfold insertDesc
    rw [List.pairwise_cons] at hl
    split_ifs with h
    · rw [List.pairwise_cons]
      refine ⟨?_, ih hl.2⟩
      intro z hz
      rcases (mem_insertDesc z x ys).mp hz with rfl | hz'
      · exact le_of_lt h
      · exact hl.1 z hz'
    · rw [List.pairwise_cons]
      refine ⟨?_, List.pairwise_cons.mpr hl⟩
      intro z hz
      rcases List.mem_cons.mp hz with rfl | hz'
      · exact le_of_not_lt h
      · exact le_trans (hl.1 z hz') (le_of_not_lt h)

theorem sortDesc_pairwise (l : List MatchResultT) :
    (sortDesc l).Pairwise (fun a b => b.similarity ≤ a.similarity) := by
  induction l with
  | nil => simp [sortDesc]
  | cons x xs ih => exact insertDesc_pairwise x (sortDesc xs) ih

theorem filter_insertDesc (q : ℚ) (x : MatchResultT) (l : List MatchResultT) :
    (insertDesc x l).filter (fun m => decide (m.similarity = q)) =
      (x :: l).filter (fun m => decide (m.similarity = q)) := by
  induction l with
  | nil => simp [insertDesc]
  | cons y ys ih =>
    unfold insertDesc
    split_ifs with h
    · by_cases hy : y.similarity = q
      · have hx : ¬ x.similarity = q := by
          intro hx; rw [hx, hy] at h; exact lt_irrefl q h
        simp [List.filter_cons, hx, hy, ih]
      · simp [List.filter_cons, hy, ih]
    · rfl

theorem filter_sortDesc (q : ℚ) (l : List MatchResultT) :
    (sortDesc l).filter (fun m => decide (m.similarity = q)) =
      l.filter (fun m => decide (m.similarity = q)) := by
  induction l with
  | nil => simp [sortDesc]
  | cons x xs ih =>
    show (insertDesc x (sortDesc xs)).filter _ = _
    rw [filter_insertDesc]
    simp only [List.filter_cons]
    rw [ih]

theorem mem_candidates (m : MatchResultT) (conf : ℚ) (text : List Char)
    (rows : List CSVRow) :
    m ∈ candidates conf text rows ↔
      ∃ row ∈ rows, 0 < (findBestMatch text row).matchedFields.length ∧
        m = mkMatchResult conf text row := by
  unfold candidates
  rw [List.mem_filterMap]
  constructor
  · rintro ⟨row, hrow, hsome⟩
    by_cases h : 0 < (findBestMatch text row).matchedFields.length
    · rw [if_pos h] at hsome
      exact ⟨row, hrow, h, (Option.some.injEq _ _ ▸ hsome).symm⟩
    · rw [if_neg h] at hsome
      exact absurd hsome (by simp)
  · rintro ⟨row, hrow, h, rfl⟩
    exact ⟨row, hrow, by rw [if_pos h]⟩

theorem mem_findMatches (m : MatchResultT) (conf : ℚ) (text : List Char)
    (rows : List CSVRow) (hm : m ∈ findMatches conf text rows) :
    ∃ row ∈ rows, 0 < (findBestMatch text row).matchedFields.length ∧
      m = mkMatchResult conf text row := by
  unfold findMatches at hm
  have h1 : m ∈ sortDesc (candidates conf text rows) :=
    (List.take_sublist 8 _).subset hm
  exact (mem_candidates m conf text rows).mp ((mem_sortDesc m _).mp h1)

end Street

/-- C5: for all string pairs, both variants' `calculateSimilarity` lies in
the closed interval [0, 1], and the composite similarity reported by the
street-number-aware `findBestMatch` (0.4 number + 0.5 address + 0.1 whole
string, with the address score capped at 0.95) also lies in [0, 1]. -/
theorem claimC5_boundedness :
    (∀ a b : List Char,
      0 ≤ Compact.calculateSimilarity a b ∧ Compact.calculateSimilarity a b ≤ 1) ∧
    (∀ a b : List Char,
      0 ≤ Street.calculateSimilarity a b ∧ Street.calculateSimilarity a b ≤ 1) ∧
    (∀ (ocrText : List Char) (row : Street.CSVRow),
      0 ≤ (Street.findBestMatch ocrText row).similarity ∧
        (Street.findBestMatch ocrText row).similarity ≤ 1) := by
  refine ⟨fun a b => ⟨?_, ?_⟩, fun a b => ⟨?_, ?_⟩, fun t r => ⟨?_, ?_⟩⟩
  · exact Compact.calcSimCompact_nonneg a b
  · exact Compact.calcSimCompact_le_one a b
  · exact Street.calcSimStreet_nonneg a b
  · exact Street.calcSimStreet_le_one a b
  · exact Street.findBestMatch_similarity_nonneg t r
  · exact Street.findBestMatch_similarity_le_one t r

/-- C3: every match result returned by the street-number-aware `findMatches`
carries a non-empty `matchedFields` list, and a record whose `findBestMatch`
produced no matched field never appears as the row of any returned result. -/
theorem claimC3_matchedFields_nonempty :
    ∀ (conf : ℚ) (text : List Char) (rows : List Street.CSVRow)
      (m : Street.MatchResultT), m ∈ Street.findMatches conf text rows →
      m.matchedFields ≠ [] ∧
        ∀ r : Street.CSVRow,
          (Street.findBestMatch text r).matchedFields = [] → m.row ≠ r := by
  intro conf text rows m hm
  obtain ⟨row, _hrow, hpos, rfl⟩ := Street.mem_findMatches m conf text rows hm
  constructor
  · show (Street.findBestMatch text row).matchedFields ≠ []
    intro h
    rw [h] at hpos
    exact absurd hpos (by simp)
  · intro r hr heq
    have : row = r := heq
    rw [this, hr] at hpos
    exact absurd hpos (by simp)

/-- C3 witness: the accepted Main Road record produces a member of
`findMatches` whose matched-field list is non-empty. -/
theorem claimC3_witness :
    (⟨row12MainRoad, [Street.streetAddressField], 0, 97/100, q12MainRoad,
        q12MainRoad⟩ : Street.MatchResultT).matchedFields ≠ [] :=
  (claimC3_matchedFields_nonempty 0 q12MainRoad [row12MainRoad] _ (by decide)).1

/-- C4: `findMatches` returns at most 8 results, in non-increasing similarity
order, and the underlying sort is stable: for every similarity value the
results carrying it appear in the original record order (the filtered
subsequences agree before and after sorting). -/
theorem claimC4_rank_bound_sorted_stable :
    ∀ (conf : ℚ) (text : List Char) (rows : List Street.CSVRow),
      (Street.findMatches conf text rows).length ≤ 8 ∧
      (Street.findMatches conf text rows).Pairwise
        (fun a b => b.similarity ≤ a.similarity) ∧
      ∀ q : ℚ,
        (Street.sortDesc (Street.candidates conf text rows)).filter
            (fun m => decide (m.similarity = q)) =
          (Street.candidates conf text rows).filter
            (fun m => decide (m.similarity = q)) := by
  intro conf text rows
  refine ⟨?_, ?_, fun q => Street.filter_sortDesc q _⟩
  · unfold Street.findMatches
    rw [List.length_take]
    exact min_le_left _ _
  · exact (Street.sortDesc_pairwise _).sublist (List.take_sublist 8 _)

/-- C1: when the query text has a non-empty leading digit run and the record's
trimmed street number is a non-empty all-digit string different from that run,
the number score is 0.1, `findBestMatch` returns empty `matchedFields`, and no
result of `findMatches` over any record collection carries the record. -/
theorem claimC1_numeric_veto :
    ∀ (ocrText : List Char) (row : Street.CSVRow),
      Street.ocrNumbersOf ocrText ≠ [] →
      Street.csvStreetNumberOf row ≠ [] →
      (Street.csvStreetNumberOf row).all isAsciiDigit = true →
      Street.csvStreetNumberOf row ≠ Street.ocrNumbersOf ocrText →
      Street.numberMatchScore ocrText row = 1/10 ∧
      (Street.findBestMatch ocrText row).matchedFields = [] ∧
      ∀ (conf : ℚ) (rows : List Street.CSVRow) (m : Street.MatchResultT),
        m ∈ Street.findMatches conf ocrText rows → m.row ≠ row := by
  intro ocrText row hO hSN hAll hNe
  have hDig : Street.isCSVNumberDigit row := ⟨hSN, hAll⟩
  have hne' : Street.ocrNumbersOf ocrText ≠ Street.csvStreetNumberOf row :=
    fun h => hNe h.symm
  have hnum : Street.numberMatchScore ocrText row = 1/10 := by
    unfold Street.numberMatchScore
    dsimp only
    rw [if_pos ⟨hO, hSN, hDig⟩, if_neg hne']
    norm_num
  have hbest : Street.compositeSimilarity ocrText row < 3/4 := by
    unfold Street.compositeSimilarity
    rw [hnum]
    nlinarith [Street.addressMatchScore_le ocrText row,
      Street.fullMatchScore_le ocrText row,
      Street.addressMatchScore_nonneg ocrText row,
      Street.fullMatchScore_nonneg ocrText row]
  have hvalid : Street.isValidMatch ocrText row = false := by
    unfold Street.isValidMatch
    dsimp only
    rw [if_pos ⟨hO, hSN, hDig⟩]
    have h1 : decide (Street.ocrNumbersOf ocrText = Street.csvStreetNumberOf row ∧
        (0.7 : ℚ) ≤ Street.addressMatchScore ocrText row) = false :=
      decide_eq_false (fun h => hne' h.1)
    have h2 : decide ((0.75 : ℚ) ≤ Street.compositeSimilarity ocrText row) = false :=
      decide_eq_false (by rw [not_le]; exact lt_of_lt_of_le hbest (by norm_num))
    rw [h1, h2]
    rfl
  have hmf : (Street.findBestMatch ocrText row).matchedFields = [] := by
    unfold Street.findBestMatch
    split_ifs with ha hv
    · rfl
    · rw [hvalid] at hv; exact absurd hv (by simp)
    · rfl
  refine ⟨hnum, hmf, ?_⟩
  intro conf rows m hm heq
  obtain ⟨row', _h1, hpos, rfl⟩ := Street.mem_findMatches m conf ocrText rows hm
  have : row' = row := heq
  rw [this, hmf] at hpos
  exact absurd hpos (by simp)

/-- C1 witness: the record with street number 34 on Main Road against the
query 12 Main Road gets number score 0.1 and empty matched fields. -/
theorem claimC1_witness :
    Street.numberMatchScore q12MainRoad row34MainRoad = 1/10 ∧
      (Street.findBestMatch q12MainRoad row34MainRoad).matchedFields = [] :=
  ⟨(claimC1_numeric_veto q12MainRoad row34MainRoad (by decide) (by decide)
      (by decide) (by decide)).1,
    (claimC1_numeric_veto q12MainRoad row34MainRoad (by decide) (by decide)
      (by decide) (by decide)).2.1⟩

/-- A `filterMap` whose function is an if-then-some-else-none is the map of
the filtered list. -/
theorem filterMap_ite_eq_filter_map {α β : Type} (p : α → Prop) [DecidablePred p]
    (f : α → β) (l : List α) :
    l.filterMap (fun a => if p a then some (f a) else none) =
      (l.filter (fun a => decide (p a))).map f := by
  induction l with
  | nil => rfl
  | cons x xs ih =>
    by_cases h : p x
    · simp [List.filterMap_cons, List.filter_cons, h, ih]
    · simp [List.filterMap_cons, List.filter_cons, h, ih]

/-- C2: against the query 34 ALF CASEY ROAD, the record with street number 34
at ALF CASEY ROAD is accepted with `matchedFields = ["streetAddress"]` and
similarity 0.97 ≥ 0.9, and whenever it is the only accepted record of the
collection it is the sole (hence first) element of `findMatches`. -/
theorem claimC2_accepted_exact :
    ∀ (conf : ℚ) (rows : List Street.CSVRow),
      rows.filter (fun r =>
        decide (0 < (Street.findBestMatch qAlfCasey r).matchedFields.length)) =
        [rowAlfCasey] →
      Street.findMatches conf qAlfCasey rows =
        [⟨rowAlfCasey, [Street.streetAddressField], conf, 97/100, qAlfCasey,
          qAlfCasey⟩] ∧
      (Street.findBestMatch qAlfCasey rowAlfCasey).matchedFields =
        [Street.streetAddressField] ∧
      (9/10 : ℚ) ≤ (Street.findBestMatch qAlfCasey rowAlfCasey).similarity := by
  intro conf rows hfilter
  have h1 : (Street.findBestMatch qAlfCasey rowAlfCasey).matchedFields =
      [Street.streetAddressField] := by decide
  have h2 : (Street.findBestMatch qAlfCasey rowAlfCasey).similarity = 97/100 := by
    decide
  have h3 : (Street.findBestMatch qAlfCasey rowAlfCasey).matchedSegment =
      qAlfCasey := by decide
  have hmk : Street.mkMatchResult conf qAlfCasey rowAlfCasey =
      ⟨rowAlfCasey, [Street.streetAddressField], conf, 97/100, qAlfCasey,
        qAlfCasey⟩ := by
    unfold Street.mkMatchResult
    rw [h1, h2, h3]
  have hc : Street.candidates conf qAlfCasey rows =
      [Street.mkMatchResult conf qAlfCasey rowAlfCasey] := by
    unfold Street.candidates
    rw [filterMap_ite_eq_filter_map
      (fun r => 0 < (Street.findBestMatch qAlfCasey r).matchedFields.length)
      (Street.mkMatchResult conf qAlfCasey) rows]
    rw [hfilter]
    rfl
  refine ⟨?_, h1, by rw [h2]; norm_num⟩
  unfold Street.findMatches
  rw [hc, hmk]
  rfl

/-- C2 witness: with the ALF CASEY record as the whole collection, the
accepted exact case is the sole returned match. -/
theorem claimC2_witness :
    Street.findMatches 0 qAlfCasey [rowAlfCasey] =
      [⟨rowAlfCasey, [Street.streetAddressField], 0, 97/100, qAlfCasey,
        qAlfCasey⟩] :=
  (claimC2_accepted_exact 0 [rowAlfCasey] (by decide)).1

/-! The empty query text is rejected against every record. -/

theorem Street.addressMatchScore_empty_text (row : Street.CSVRow) :
    Street.addressMatchScore [] row = 0 := by
  unfold Street.addressMatchScore
  dsimp only
  rw [if_pos (Or.inl (by decide))]

theorem Street.fullMatchScore_empty_text (row : Street.CSVRow) :
    Street.fullMatchScore [] row = 0 := by
  unfold Street.fullMatchScore
  dsimp only
  rw [if_pos (Or.inl (by decide))]

theorem Street.compositeSimilarity_empty_text (row : Street.CSVRow) :
    Street.compositeSimilarity [] row < 7/10 := by
  unfold Street.compositeSimilarity
  rw [Street.addressMatchScore_empty_text, Street.fullMatchScore_empty_text]
  nlinarith [Street.numberMatchScore_le_one [] row,
    Street.numberMatchScore_nonneg [] row]

theorem Street.isValidMatch_empty_text (row : Street.CSVRow) :
    Street.isValidMatch [] row = false := by
  have hbest := Street.compositeSimilarity_empty_text row
  have hb1 : decide ((0.75 : ℚ) ≤ Street.compositeSimilarity [] row) = false :=
    decide_eq_false (by rw [not_le]; exact lt_of_lt_of_le hbest (by norm_num))
  have hb2 : decide ((0.7 : ℚ) ≤ Street.compositeSimilarity [] row ∨
      (0.9 : ℚ) ≤ Street.addressMatchScore [] row) = false := by
    refine decide_eq_false ?_
    rw [Street.addressMatchScore_empty_text]
    rintro (h | h)
    · exact absurd h (by rw [not_le]; exact lt_of_lt_of_le hbest (by norm_num))
    · exact absurd h (by norm_num)
  unfold Street.isValidMatch
  dsimp only
  split_ifs with h1 h2 h3 h4
  · exact absurd (by decide : Street.ocrNumbersOf [] = []) h1.1
  · exact absurd (by decide : Street.ocrNumbersOf [] = []) h2.1
  · have hc : decide (((0.8 : ℚ) ≤ Street.numberMatchScore [] row ∧
        (0.7 : ℚ) ≤ Street.addressMatchScore [] row) ∨
        (0.85 : ℚ) ≤ Street.addressMatchScore [] row) = false := by
      refine decide_eq_false ?_
      rw [Street.addressMatchScore_empty_text]
      rintro (⟨_, h⟩ | h) <;> norm_num at h
    rw [hc, hb1]
    rfl
  · have hc : decide ((0.85 : ℚ) ≤ Street.addressMatchScore [] row ∨
        (0.8 : ℚ) ≤ Street.fullMatchScore [] row) = false := by
      refine decide_eq_false ?_
      rw [Street.addressMatchScore_empty_text, Street.fullMatchScore_empty_text]
      rintro (h | h) <;> norm_num at h
    rw [hc, hb1]
    rfl
  · rw [hb2, hb1]
    rfl

theorem Street.findBestMatch_empty_text (row : Street.CSVRow) :
    (Street.findBestMatch [] row).matchedFields = [] := by
  unfold Street.findBestMatch
  split_ifs with ha hv
  · rfl
  · rw [Street.isValidMatch_empty_text] at hv; exact absurd hv (by simp)
  · rfl

/-- C10 (amended): `findMatches` on the empty query text returns the empty
sequence for every record collection, and on the empty record collection it
returns the empty sequence for every query text; both totally, without any
error.  (The original claim also covered whitespace-only query texts, which
the code in fact accepts: see the counterexample.) -/
theorem claimC10_empty_inputs_amended :
    (∀ (conf : ℚ) (rows : List Street.CSVRow),
      Street.findMatches conf [] rows = []) ∧
    (∀ (conf : ℚ) (text : List Char), Street.findMatches conf text [] = []) := by
  constructor
  · intro conf rows
    have hc : Street.candidates conf [] rows = [] := by
      unfold Street.candidates
      refine List.filterMap_eq_nil_iff.mpr ?_
      intro row _hrow
      rw [if_neg]
      rw [Street.findBestMatch_empty_text]
      simp
    unfold Street.findMatches
    rw [hc]
    rfl
  · intro conf text
    rfl

/-- C10 counterexample: a whitespace-only (non-empty) query text does return
a match against a record with an address and no street number, so the claim
as stated fails for whitespace-only query texts. -/
theorem claimC10_cex : Street.findMatches 0 qOneSpace [rowNoNumber] ≠ [] := by
  decide

/-! The boolean containment test agrees with the substring relation. -/

theorem isPrefixOf_iff_exists (l1 l2 : List Char) :
    l1.isPrefixOf l2 = true ↔ ∃ t, l1 ++ t = l2 := by
  induction l1 generalizing l2 with
  | nil => simp [List.isPrefixOf]
  | cons a as ih =>
    cases l2 with
    | nil => simp [List.isPrefixOf]
    | cons b bs =>
      rw [List.isPrefixOf, Bool.and_eq_true, beq_iff_eq, ih]
      constructor
      · rintro ⟨rfl, t, rfl⟩
        exact ⟨t, rfl⟩
      · rintro ⟨t, ht⟩
        rw [List.cons_append] at ht
        have hab : a = b := (List.cons.injEq _ _ _ _ ▸ ht).1
        have hrest : as ++ t = bs := (List.cons.injEq _ _ _ _ ▸ ht).2
        exact ⟨hab, t, hrest⟩

theorem firstOccur_isSome_iff (needle hay : List Char) :
    (firstOccur needle hay).isSome = true ↔ isSubstringOf needle hay := by
  induction hay with
  | nil =>
    unfold firstOccur
    split_ifs with h
    · subst h
      simp only [Option.isSome_some, true_iff]
      exact ⟨[], [], rfl⟩
    · simp only [Option.isSome_none, Bool.false_eq_true, false_iff]
      rintro ⟨pre, post, hps⟩
      have := hps.symm
      rw [List.append_assoc] at this
      rcases List.append_eq_nil.mp this with ⟨hpre, hrest⟩
      rcases List.append_eq_nil.mp hrest with ⟨hn, _⟩
      exact h hn
  | cons c rest ih =>
    unfold firstOccur
    split_ifs with h
    · simp only [Option.isSome_some, true_iff]
      obtain ⟨t, ht⟩ := (isPrefixOf_iff_exists needle (c :: rest)).mp h
      exact ⟨[], t, by rw [List.nil_append, ht]⟩
    · have hmap : (Option.map (fun x => x + 1) (firstOccur needle rest)).isSome =
          (firstOccur needle rest).isSome := by
        cases firstOccur needle rest <;> rfl
      rw [hmap, ih]
      constructor
      · rintro ⟨pre, post, hps⟩
        exact ⟨c :: pre, post, by rw [hps]; rfl⟩
      · rintro ⟨pre, post, hps⟩
        cases pre with
        | nil =>
          exfalso
          apply h
          rw [isPrefixOf_iff_exists]
          exact ⟨post, by rw [List.nil_append] at hps; exact hps.symm⟩
        | cons d pre' =>
          rw [List.cons_append, List.cons_append] at hps
          have hd : c = d := (List.cons.injEq _ _ _ _ ▸ hps).1
          have hr : rest = pre' ++ needle ++ post := by
            have := (List.cons.injEq _ _ _ _ ▸ hps).2
            rw [this, List.append_assoc]
          exact ⟨pre', post, hr⟩

theorem jsIncludes_iff (hay needle : List Char) :
    jsIncludes hay needle = true ↔ isSubstringOf needle hay := by
  unfold jsIncludes
  exact firstOccur_isSome_iff needle hay

theorem similarityCore_of_substring (c1 c2 : List Char) (h1 : c1 ≠ [])
    (hsub : isSubstringOf c1 c2) : (0.85 : ℚ) ≤ similarityCore c1 c2 := by
  have h2 : c2 ≠ [] := by
    rintro rfl
    obtain ⟨pre, post, hps⟩ := hsub
    have := hps.symm
    rw [List.append_assoc] at this
    rcases List.append_eq_nil.mp this with ⟨_, hrest⟩
    rcases List.append_eq_nil.mp hrest with ⟨hn, _⟩
    exact h1 hn
  unfold similarityCore
  rw [if_neg (by rintro (h | h) <;> [exact h1 h; exact h2 h])]
  by_cases heq : c1 = c2
  · rw [if_pos heq]
    norm_num
  · have hor : (jsIncludes c1 c2 || jsIncludes c2 c1) = true := by
      have h := (jsIncludes_iff c2 c1).mpr hsub
      rw [h, Bool.or_true]
    rw [if_neg heq, if_pos hor]

/-- C7 (amended): containment monotonicity holds provided the normalized form
of `a` is non-empty: if the non-empty normalized `a` is a substring of the
normalized `b`, both variants' `calculateSimilarity a b` is at least 0.85.
(The original claim, with no non-emptiness proviso, fails at a = "".) -/
theorem claimC7_containment_amended :
    ∀ a b : List Char,
      (Compact.normalizeString a ≠ [] →
        isSubstringOf (Compact.normalizeString a) (Compact.normalizeString b) →
        (0.85 : ℚ) ≤ Compact.calculateSimilarity a b) ∧
      (Street.normalizeString a ≠ [] →
        isSubstringOf (Street.normalizeString a) (Street.normalizeString b) →
        (0.85 : ℚ) ≤ Street.calculateSimilarity a b) := by
  intro a b
  exact ⟨fun h1 hsub => similarityCore_of_substring _ _ h1 hsub,
    fun h1 hsub => similarityCore_of_substring _ _ h1 hsub⟩

/-- C7 counterexample: the normalized empty string is a substring of the
normalized string x, yet the similarity is 0, below 0.85 — the claim as
stated (with no non-emptiness proviso) is false. -/
theorem claimC7_cex :
    isSubstringOf (Compact.normalizeString []) (Compact.normalizeString sX) ∧
      Compact.calculateSimilarity [] sX < 0.85 := by
  constructor
  · exact ⟨[], Compact.normalizeString sX, by decide⟩
  · decide

/-- C7 witness: main is a normalized substring of xmainy and scores at least
0.85. -/
theorem claimC7_witness : (0.85 : ℚ) ≤ Compact.calculateSimilarity sMain sXMainY :=
  (claimC7_containment_amended sMain sXMainY).1 (by decide)
    ⟨['x'], ['y'], by decide⟩

/-! Character-level facts about ASCII lowercasing. -/

theorem char_toNat_ofNat (n : Nat) (hv : n.isValidChar) : (Char.ofNat n).toNat = n := by
  simp [Char.ofNat, hv, Char.toNat, Char.ofNatAux, UInt32.toNat, BitVec.toNat_ofNatLt]

theorem jsToLower_toNat_of_upper (c : Char) (h : 65 ≤ c.toNat ∧ c.toNat ≤ 90) :
    (jsToLower c).toNat = c.toNat + 32 := by
  unfold jsToLower
  rw [if_pos h]
  exact char_toNat_ofNat (c.toNat + 32) (Or.inl (by omega))

theorem jsToLower_fixed (c : Char) (h : ¬(65 ≤ c.toNat ∧ c.toNat ≤ 90)) :
    jsToLower c = c := by
  unfold jsToLower
  rw [if_neg h]

theorem jsToLower_not_upper (c : Char) :
    ¬(65 ≤ (jsToLower c).toNat ∧ (jsToLower c).toNat ≤ 90) := by
  by_cases h : 65 ≤ c.toNat ∧ c.toNat ≤ 90
  · rw [jsToLower_toNat_of_upper c h]
    omega
  · rw [jsToLower_fixed c h]
    exact h

theorem jsToLower_idem (c : Char) : jsToLower (jsToLower c) = jsToLower c :=
  jsToLower_fixed _ (jsToLower_not_upper c)

/-! Membership chains through the normalizer pipeline. -/

theorem mem_of_mem_dropWhileWs (c : Char) (p : Char → Bool) (l : List Char)
    (h : c ∈ l.dropWhile p) : c ∈ l := by
  induction l with
  | nil => simp [List.dropWhile] at h
  | cons d ds ih =>
    by_cases hp : p d = true
    · rw [List.dropWhile_cons_of_pos hp] at h
      exact List.mem_cons_of_mem d (ih h)
    · rw [List.dropWhile_cons_of_neg hp] at h
      exact h

theorem mem_of_mem_jsTrim (c : Char) (s : List Char) (h : c ∈ jsTrim s) : c ∈ s := by
  unfold jsTrim dropTrailingWs at h
  rw [List.mem_reverse] at h
  have h1 := mem_of_mem_dropWhileWs c isJsSpace _ h
  rw [List.mem_reverse] at h1
  exact mem_of_mem_dropWhileWs c isJsSpace s h1

theorem mem_collapseGo (c : Char) :
    ∀ (b : Bool) (s : List Char), c ∈ collapseGo b s →
      c = ' ' ∨ (c ∈ s ∧ isJsSpace c = false) := by
  intro b s
  induction s generalizing b with
  | nil => intro h; simp [collapseGo] at h
  | cons d ds ih =>
    intro h
    rw [collapseGo] at h
    by_cases hd : isJsSpace d
    · rw [if_pos hd] at h
      by_cases hb : b
      · rw [if_pos hb] at h
        rcases ih true h with h' | ⟨hmem, hws⟩
        · exact Or.inl h'
        · exact Or.inr ⟨List.mem_cons_of_mem d hmem, hws⟩
      · rw [if_neg hb] at h
        rcases List.mem_cons.mp h with rfl | h'
        · exact Or.inl rfl
        · rcases ih true h' with h'' | ⟨hmem, hws⟩
          · exact Or.inl h''
          · exact Or.inr ⟨List.mem_cons_of_mem d hmem, hws⟩
    · rw [if_neg hd] at h
      rcases List.mem_cons.mp h with rfl | h'
      · exact Or.inr ⟨List.mem_cons_self _ _, by simpa using hd⟩
      · rcases ih false h' with h'' | ⟨hmem, hws⟩
        · exact Or.inl h''
        · exact Or.inr ⟨List.mem_cons_of_mem d hmem, hws⟩

theorem mem_compact_normalize (c : Char) (s : List Char)
    (h : c ∈ Compact.normalizeString s) :
    keepCompact c = true ∧ ∃ c0, c = jsToLower c0 := by
  unfold Compact.normalizeString at h
  have h1 := List.mem_filter.mp h
  have h2 := List.mem_filter.mp h1.1
  have h3 := mem_of_mem_jsTrim c _ h2.1
  obtain ⟨c0, _hc0, hlc⟩ := List.mem_map.mp h3
  exact ⟨h1.2, c0, hlc.symm⟩

theorem mem_street_normalize (c : Char) (s : List Char)
    (h : c ∈ Street.normalizeString s) :
    keepSpaced c = true ∧
      (c = ' ' ∨ ((∃ c0, c = jsToLower c0) ∧ isJsSpace c = false)) := by
  unfold Street.normalizeString collapseWs at h
  have h1 := List.mem_filter.mp h
  refine ⟨h1.2, ?_⟩
  rcases mem_collapseGo c false _ h1.1 with h2 | ⟨h2, hws⟩
  · exact Or.inl h2
  · have h3 := mem_of_mem_jsTrim c _ h2
    obtain ⟨c0, _hc0, hlc⟩ := List.mem_map.mp h3
    exact Or.inr ⟨⟨c0, hlc.symm⟩, hws⟩

/-- C9 (amended): every character of the compact normalizer's output is a
lowercase Latin letter, a decimal digit, an underscore, or a CJK ideograph;
the spaced normalizer's output additionally allows spaces and hyphens.  (The
original claim omitted the underscore, which the `\w` regex class keeps: see
the counterexample.) -/
theorem claimC9_alphabet_amended :
    ∀ (s : List Char) (c : Char),
      (c ∈ Compact.normalizeString s → outAlphabetCompact c) ∧
      (c ∈ Street.normalizeString s → outAlphabetSpaced c) := by
  intro s c
  constructor
  · intro h
    obtain ⟨hk, c0, rfl⟩ := mem_compact_normalize c s h
    have hnu := jsToLower_not_upper c0
    rw [keepCompact, Bool.or_eq_true, isWordChar, isCJK] at hk
    rcases hk with hw | hc
    · rw [decide_eq_true_eq] at hw
      rcases hw with h1 | h2 | h3 | h4
      · exact Or.inl h1
      · exact absurd h2 hnu
      · exact Or.inr (Or.inl h3)
      · exact Or.inr (Or.inr (Or.inl h4))
    · rw [decide_eq_true_eq] at hc
      exact Or.inr (Or.inr (Or.inr hc))
  · intro h
    obtain ⟨hk, hrest⟩ := mem_street_normalize c s h
    rcases hrest with rfl | ⟨⟨c0, rfl⟩, hws⟩
    · exact Or.inr (Or.inl rfl)
    · have hnu := jsToLower_not_upper c0
      rw [keepSpaced, Bool.or_eq_true, Bool.or_eq_true, Bool.or_eq_true,
        isWordChar, isJsSpace, isCJK] at hk
      rcases hk with ((hw | hsp) | hc) | hh
      · rw [decide_eq_true_eq] at hw
        rcases hw with h1 | h2 | h3 | h4
        · exact Or.inl (Or.inl h1)
        · exact absurd h2 hnu
        · exact Or.inl (Or.inr (Or.inl h3))
        · exact Or.inl (Or.inr (Or.inr (Or.inl h4)))
      · rw [decide_eq_true_eq] at hsp
        rw [isJsSpace] at hws
        rw [decide_eq_false_iff_not] at hws
        exact absurd hsp hws
      · rw [decide_eq_true_eq] at hc
        exact Or.inl (Or.inr (Or.inr (Or.inr hc)))
      · rw [decide_eq_true_eq] at hh
        have : (jsToLower c0).toNat = 45 := by rw [hh]; rfl
        exact Or.inr (Or.inr this)

/-- C9 counterexample: the underscore survives compact normalization but is
neither a lowercase Latin letter, nor a digit, nor a CJK ideograph, so the
claim as stated is false. -/
theorem claimC9_cex :
    '_' ∈ Compact.normalizeString sUnderscore ∧
      ¬((97 ≤ '_'.toNat ∧ '_'.toNat ≤ 122) ∨ (48 ≤ '_'.toNat ∧ '_'.toNat ≤ 57) ∨
        (0x4e00 ≤ '_'.toNat ∧ '_'.toNat ≤ 0x9fff)) := by
  exact ⟨by decide, by decide⟩

/-- C9 witness: the letter a is in the normalized output of the string a and
belongs to the allowed alphabet. -/
theorem claimC9_witness : outAlphabetCompact 'a' :=
  (claimC9_alphabet_amended sA 'a').1 (by decide)

/-! Characters left intact by the compact normalizer, and the behaviour of
`findBestSubstring` over them. -/

theorem stableChar_props (c : Char) (h : stableChar c) :
    jsToLower c = c ∧ isJsSpace c = false ∧ keepCompact c = true := by
  unfold stableChar Compact.normalizeString at h
  by_cases hws : isJsSpace (jsToLower c) = true
  · exfalso
    have htrim : jsTrim ([c].map jsToLower) = [] := by
      simp [jsTrim, dropTrailingWs, List.dropWhile, hws]
    rw [htrim] at h
    exact absurd h (by simp)
  · have hws' : isJsSpace (jsToLower c) = false := by
      simpa using hws
    have htrim : jsTrim ([c].map jsToLower) = [jsToLower c] := by
      simp [jsTrim, dropTrailingWs, List.dropWhile, hws']
    rw [htrim] at h
    rw [List.filter_cons, List.filter_nil] at h
    rw [hws'] at h
    simp only [Bool.not_false, if_pos] at h
    rw [List.filter_cons, List.filter_nil] at h
    by_cases hk : keepCompact (jsToLower c) = true
    · rw [hk] at h
      simp only [if_pos] at h
      have hc : jsToLower c = c := by
        have := (List.cons.injEq _ _ _ _ ▸ h).1
        exact this
      rw [hc] at hws' hk
      exact ⟨hc, hws', hk⟩
    · rw [Bool.not_eq_true] at hk
      rw [hk] at h
      exact absurd h (by simp)

theorem dropWhileWs_eq_self (l : List Char) (h : ∀ c ∈ l, isJsSpace c = false) :
    l.dropWhile isJsSpace = l := by
  cases l with
  | nil => rfl
  | cons d ds =>
    exact List.dropWhile_cons_of_neg (by rw [h d (List.mem_cons_self d ds)]; simp)

theorem jsTrim_eq_self_of_no_ws (l : List Char) (h : ∀ c ∈ l, isJsSpace c = false) :
    jsTrim l = l := by
  unfold jsTrim dropTrailingWs
  rw [dropWhileWs_eq_self l h]
  rw [dropWhileWs_eq_self l.reverse (fun c hc => h c (List.mem_reverse.mp hc))]
  exact List.reverse_reverse l

theorem normalize_eq_self_of_stable (s : List Char) (h : ∀ c ∈ s, stableChar c) :
    Compact.normalizeString s = s := by
  unfold Compact.normalizeString
  have hmap : s.map jsToLower = s := by
    have h2 := List.map_congr_left (fun c hc => (stableChar_props c (h c hc)).1)
    simpa using h2
  rw [hmap]
  rw [jsTrim_eq_self_of_no_ws s (fun c hc => (stableChar_props c (h c hc)).2.1)]
  have h1 : s.filter (fun c => !isJsSpace c) = s :=
    List.filter_eq_self.mpr (fun c hc => by
      rw [(stableChar_props c (h c hc)).2.1]
      rfl)
  rw [h1]
  exact List.filter_eq_self.mpr (fun c hc => (stableChar_props c (h c hc)).2.2)

theorem walkAux_stable :
    ∀ (cs : List Char) (i nIdx start : Nat), (∀ c ∈ cs, stableChar c) →
      nIdx ≤ start → start < nIdx + cs.length →
      Compact.walkAux cs i nIdx start = some (i + (start - nIdx)) := by
  intro cs
  induction cs with
  | nil => intro i nIdx start _ h1 h2; simp at h2; omega
  | cons c rest ih =>
    intro i nIdx start hstab h1 h2
    rw [Compact.walkAux]
    by_cases he : nIdx = start
    · rw [if_pos he]
      congr 1
      omega
    · rw [if_neg he]
      have hc : Compact.normalizeString [c] = [c] :=
        hstab c (List.mem_cons_self c rest)
      rw [hc]
      have := ih (i + 1) (nIdx + 1) start
        (fun d hd => hstab d (List.mem_cons_of_mem c hd))
        (by omega) (by simp at h2; omega)
      rw [List.length_singleton, this]
      congr 1
      omega

theorem firstOccur_some_then (needle : List Char) :
    ∀ (hay : List Char) (k : Nat), firstOccur needle hay = some k →
      ∃ t, needle ++ t = hay.drop k := by
  intro hay
  induction hay with
  | nil =>
    intro k h
    rw [firstOccur] at h
    by_cases hn : needle = []
    · rw [if_pos hn] at h
      have hk : (0 : Nat) = k := Option.some.inj h
      subst hn
      rw [← hk]
      exact ⟨[], rfl⟩
    · rw [if_neg hn] at h
      exact absurd h (by simp)
  | cons c rest ih =>
    intro k h
    rw [firstOccur] at h
    by_cases hp : needle.isPrefixOf (c :: rest) = true
    · rw [if_pos hp] at h
      have hk : (0 : Nat) = k := Option.some.inj h
      rw [← hk]
      obtain ⟨t, ht⟩ := (isPrefixOf_iff_exists needle (c :: rest)).mp hp
      exact ⟨t, ht⟩
    · rw [if_neg hp] at h
      cases hro : firstOccur needle rest with
      | none => rw [hro] at h; exact absurd h (by simp)
      | some k' =>
        rw [hro] at h
        have hk : k' + 1 = k := Option.some.inj h
        rw [← hk]
        obtain ⟨t, ht⟩ := ih k' hro
        exact ⟨t, by rw [List.drop_succ_cons]; exact ht⟩

/-- C8 (amended): when the normalized target does not occur in the normalized
text, `findBestSubstring` returns the empty string; when it does occur and
every character of the text is left intact by normalization, the returned
slice normalizes exactly to the normalized target.  (For general texts the
returned slice is `normalizedTarget.length` raw characters starting at the
mapped position, whose normalization can lose characters: see the
counterexample.) -/
theorem claimC8_substring_amended :
    ∀ text target : List Char,
      (¬ isSubstringOf (Compact.normalizeString target)
          (Compact.normalizeString text) →
        Compact.findBestSubstring text target = []) ∧
      ((∀ c ∈ text, stableChar c) →
        isSubstringOf (Compact.normalizeString target)
          (Compact.normalizeString text) →
        Compact.normalizeString (Compact.findBestSubstring text target) =
          Compact.normalizeString target) := by
  intro text target
  constructor
  · intro hn
    have hocc : firstOccur (Compact.normalizeString target)
        (Compact.normalizeString text) = none := by
      cases hocc : firstOccur (Compact.normalizeString target)
          (Compact.normalizeString text) with
      | none => rfl
      | some k =>
        exfalso
        apply hn
        rw [← firstOccur_isSome_iff, hocc]
        rfl
    simp only [Compact.findBestSubstring]
    rw [hocc]
  · intro hstab hsub
    have hnt : Compact.normalizeString text = text :=
      normalize_eq_self_of_stable text hstab
    have hsome : (firstOccur (Compact.normalizeString target)
        (Compact.normalizeString text)).isSome = true :=
      (firstOccur_isSome_iff _ _).mpr hsub
    obtain ⟨k, hk⟩ := Option.isSome_iff_exists.mp hsome
    have hk' : firstOccur (Compact.normalizeString target) text = some k := by
      rw [← hnt]; exact hk
    obtain ⟨t, ht⟩ := firstOccur_some_then _ _ _ (by rw [hnt] at hk; exact hk)
    simp only [Compact.findBestSubstring]
    rw [hk]
    cases hntg : Compact.normalizeString target with
    | nil =>
      simp only [hntg, List.length_nil, List.take_zero]
      rfl
    | cons d ds =>
      rw [← hntg]
      have hlen : 0 < (Compact.normalizeString target).length := by
        rw [hntg]; simp
      have hdroplen : (Compact.normalizeString target).length ≤ text.length - k := by
        have := congrArg List.length ht
        rw [List.length_append, List.length_drop] at this
        omega
      have hklt : k < text.length := by
        have := congrArg List.length ht
        rw [List.length_append, List.length_drop] at this
        omega
      have hwalk : Compact.walkAux text 0 0 k = some k := by
        have hw := walkAux_stable text 0 0 k hstab (by omega) (by omega)
        simpa using hw
      dsimp only
      rw [hwalk]
      simp only [Option.getD_some]
      have htake : (text.drop k).take (Compact.normalizeString target).length =
          Compact.normalizeString target := by
        rw [← ht]
        exact List.take_left _ _
      rw [htake]
      refine normalize_eq_self_of_stable _ (fun c hc => ?_)
      apply hstab
      have h1 : c ∈ text.drop k := by
        rw [← ht]
        exact List.mem_append_left t hc
      exact List.drop_subset k text h1

/-- C8 counterexample: the normalized needle ab occurs in the normalized
haystack obtained from the raw string a-space-b, but the returned raw slice
normalizes to the single letter a, not to ab — so the claim as stated is
false. -/
theorem claimC8_cex :
    isSubstringOf (Compact.normalizeString sAB) (Compact.normalizeString sASpaceB) ∧
      Compact.normalizeString (Compact.findBestSubstring sASpaceB sAB) ≠
        Compact.normalizeString sAB := by
  exact ⟨⟨[], [], by decide⟩, by decide⟩

/-- C8 witness: in the haystack xaby, whose characters normalization leaves
intact, the extracted slice for the needle ab normalizes to ab. -/
theorem claimC8_witness :
    Compact.normalizeString (Compact.findBestSubstring sXABY sAB) =
      Compact.normalizeString sAB :=
  (claimC8_substring_amended sXABY sAB).2 (by decide) ⟨['x'], ['y'], by decide⟩

/-! Idempotence analysis of the two normalizers. -/

theorem keepCompact_not_ws (c : Char) (h : keepCompact c = true) :
    isJsSpace c = false := by
  rw [keepCompact, Bool.or_eq_true, isWordChar, isCJK] at h
  rw [isJsSpace]
  rw [decide_eq_false_iff_not]
  rcases h with hw | hc
  · rw [decide_eq_true_eq] at hw
    intro hws
    rcases hw with h1 | h2 | h3 | h4 <;> omega
  · rw [decide_eq_true_eq] at hc
    intro hws
    omega

theorem compact_output_stable (s : List Char) :
    ∀ c ∈ Compact.normalizeString s, stableChar c := by
  intro c hc
  obtain ⟨hk, c0, rfl⟩ := mem_compact_normalize c s hc
  have hlow : jsToLower (jsToLower c0) = jsToLower c0 := jsToLower_idem c0
  have hws : isJsSpace (jsToLower c0) = false := keepCompact_not_ws _ hk
  unfold stableChar Compact.normalizeString
  have hmapc : [jsToLower c0].map jsToLower = [jsToLower c0] := by
    simp [hlow]
  rw [hmapc]
  have htrim : jsTrim [jsToLower c0] = [jsToLower c0] :=
    jsTrim_eq_self_of_no_ws _ (by intro d hd; rw [List.mem_singleton.mp hd]; exact hws)
  rw [htrim]
  rw [List.filter_cons, List.filter_nil, hws]
  simp only [Bool.not_false, if_pos]
  rw [List.filter_cons, List.filter_nil, hk]
  simp only [if_pos]

/-! Helper facts about `dropWhile`, `getLast?` and `collapseGo`. -/

theorem dropWhile_is_suffix (p : Char → Bool) (z : List Char) :
    ∃ pre, z = pre ++ z.dropWhile p := by
  induction z with
  | nil => exact ⟨[], rfl⟩
  | cons d ds ih =>
    by_cases hp : p d = true
    · obtain ⟨pre, hpre⟩ := ih
      rw [List.dropWhile_cons_of_pos hp]
      exact ⟨d :: pre, by rw [List.cons_append, ← hpre]⟩
    · rw [List.dropWhile_cons_of_neg hp]
      exact ⟨[], rfl⟩

theorem head?_dropWhile (p : Char → Bool) (z : List Char) (c : Char)
    (h : (z.dropWhile p).head? = some c) : p c = false := by
  induction z with
  | nil => simp [List.dropWhile] at h
  | cons d ds ih =>
    by_cases hp : p d = true
    · rw [List.dropWhile_cons_of_pos hp] at h
      exact ih h
    · rw [List.dropWhile_cons_of_neg hp] at h
      have : d = c := by simpa using h
      rw [← this]
      simpa using hp

theorem getLast?_cons_of_ne_nil (a : Char) (l : List Char) (h : l ≠ []) :
    (a :: l).getLast? = l.getLast? := by
  cases l with
  | nil => exact absurd rfl h
  | cons b bs => exact List.getLast?_cons_cons

theorem getLast?_append_right (pre r : List Char) (h : r ≠ []) :
    (pre ++ r).getLast? = r.getLast? := by
  induction pre with
  | nil => rfl
  | cons a pre' ih =>
    rw [List.cons_append]
    rw [getLast?_cons_of_ne_nil a (pre' ++ r) (by
      intro hx
      rcases List.append_eq_nil.mp hx with ⟨_, hr⟩
      exact h hr)]
    exact ih

theorem jsTrim_head_not_ws (x : List Char) (c : Char)
    (h : (jsTrim x).head? = some c) : isJsSpace c = false := by
  unfold jsTrim dropTrailingWs at h
  rw [List.head?_reverse] at h
  set w := ((x.dropWhile isJsSpace).reverse).dropWhile isJsSpace with hw
  have hwne : w ≠ [] := by
    intro hx
    rw [hx] at h
    exact absurd h (by simp)
  obtain ⟨pre, hpre⟩ := dropWhile_is_suffix isJsSpace (x.dropWhile isJsSpace).reverse
  have h2 : ((x.dropWhile isJsSpace).reverse).getLast? = some c := by
    rw [hpre, getLast?_append_right pre w hwne]
    exact h
  rw [List.getLast?_reverse] at h2
  exact head?_dropWhile isJsSpace x c h2

theorem jsTrim_getLast_not_ws (x : List Char) (c : Char)
    (h : (jsTrim x).getLast? = some c) : isJsSpace c = false := by
  unfold jsTrim dropTrailingWs at h
  rw [List.getLast?_reverse] at h
  exact head?_dropWhile isJsSpace _ c h

theorem jsTrim_eq_self_of_ends (y : List Char)
    (hh : ∀ c, y.head? = some c → isJsSpace c = false)
    (hl : ∀ c, y.getLast? = some c → isJsSpace c = false) : jsTrim y = y := by
  unfold jsTrim dropTrailingWs
  have h1 : y.dropWhile isJsSpace = y := by
    cases y with
    | nil => rfl
    | cons d ds => exact List.dropWhile_cons_of_neg (by rw [hh d rfl]; simp)
  rw [h1]
  have h2 : y.reverse.dropWhile isJsSpace = y.reverse := by
    cases hyr : y.reverse with
    | nil => rfl
    | cons d ds =>
      refine List.dropWhile_cons_of_neg ?_
      have : y.reverse.head? = some d := by rw [hyr]; rfl
      rw [List.head?_reverse] at this
      rw [hl d this]
      simp
  rw [h2, List.reverse_reverse]

theorem collapseGo_head (z : List Char) (c : Char) (hz : z.head? = some c)
    (hc : isJsSpace c = false) : (collapseGo false z).head? = some c := by
  cases z with
  | nil => exact absurd hz (by simp)
  | cons d ds =>
    have hd : d = c := by simpa using hz
    subst hd
    rw [collapseGo, if_neg (by rw [hc]; simp)]
    rfl

theorem collapseGo_getLast (z : List Char) (c : Char) (hc : isJsSpace c = false) :
    ∀ b, z.getLast? = some c → (collapseGo b z).getLast? = some c := by
  induction z with
  | nil => intro b hz; exact absurd hz (by simp)
  | cons d ds ih =>
    intro b hz
    cases ds with
    | nil =>
      have hd : d = c := by simpa using hz
      subst hd
      rw [collapseGo, if_neg (by rw [hc]; simp)]
      rfl
    | cons e es =>
      rw [List.getLast?_cons_cons] at hz
      have hx : ∀ b', (collapseGo b' (e :: es)).getLast? = some c := fun b' =>
        ih b' hz
      have hne : ∀ b', collapseGo b' (e :: es) ≠ [] := by
        intro b' h0
        have := hx b'
        rw [h0] at this
        exact absurd this (by simp)
      rw [collapseGo]
      by_cases hd : isJsSpace d = true
      · rw [if_pos hd]
        by_cases hb : b = true
        · rw [hb, if_pos rfl]
          exact hx true
        · rw [Bool.not_eq_true] at hb
          rw [hb]
          simp only [Bool.false_eq_true, if_neg, if_false]
          rw [getLast?_cons_of_ne_nil ' ' _ (hne true)]
          exact hx true
      · rw [if_neg hd]
        rw [getLast?_cons_of_ne_nil d _ (hne false)]
        exact hx false

/-- Canonical-form check used to prove the collapse map idempotent: all
whitespace is a single space and no two spaces are adjacent (the flag recalls
whether the previous character was a space). -/
def canonAux : Bool → List Char → Bool
  | _, [] => true
  | prev, c :: cs =>
    if isJsSpace c then decide (c = ' ') && !prev && canonAux true cs
    else canonAux false cs

theorem canonAux_collapseGo (z : List Char) :
    ∀ b, canonAux b (collapseGo b z) = true := by
  induction z with
  | nil => intro b; rfl
  | cons d ds ih =>
    intro b
    rw [collapseGo]
    by_cases hd : isJsSpace d = true
    · rw [if_pos hd]
      by_cases hb : b = true
      · rw [hb, if_pos rfl]
        exact ih true
      · rw [Bool.not_eq_true] at hb
        rw [hb]
        simp only [Bool.false_eq_true, if_neg, if_false]
        rw [canonAux, if_pos (by decide)]
        have hds : decide ((' ' : Char) = ' ') = true := by decide
        rw [hds]
        simp only [Bool.not_false, Bool.true_and, Bool.and_true]
        exact ih true
    · rw [if_neg hd]
      rw [canonAux, if_neg hd]
      exact ih false

theorem collapseGo_of_canonAux (y : List Char) :
    ∀ b, canonAux b y = true → collapseGo b y = y := by
  induction y with
  | nil => intro b _; rfl
  | cons d ds ih =>
    intro b hc
    rw [canonAux] at hc
    by_cases hd : isJsSpace d = true
    · rw [if_pos hd] at hc
      rw [Bool.and_eq_true, Bool.and_eq_true] at hc
      obtain ⟨⟨hsp, hb⟩, hrec⟩ := hc
      rw [decide_eq_true_eq] at hsp
      subst hsp
      have hbf : b = false := by
        cases b
        · rfl
        · simp at hb
      subst hbf
      rw [collapseGo, if_pos hd]
      simp only [Bool.false_eq_true, if_neg, if_false]
      rw [ih true hrec]
    · rw [if_neg hd] at hc
      rw [collapseGo, if_neg hd]
      rw [ih false hc]

theorem street_output_good (s : List Char) :
    ∀ c ∈ Street.normalizeString s,
      keepSpaced c = true ∧ jsToLower c = c ∧ (isJsSpace c = true → c = ' ') := by
  intro c hc
  obtain ⟨hk, hrest⟩ := mem_street_normalize c s hc
  rcases hrest with rfl | ⟨⟨c0, rfl⟩, hws⟩
  · exact ⟨hk, by decide, fun _ => rfl⟩
  · exact ⟨hk, jsToLower_idem c0, fun h => absurd h (by rw [hws]; simp)⟩

theorem street_norm_of_good (v : List Char)
    (hkeep : ∀ c ∈ v, keepSpaced c = true)
    (hlow : ∀ c ∈ v, jsToLower c = c) :
    Street.normalizeString v = collapseWs (jsTrim v) := by
  unfold Street.normalizeString
  have hmap : v.map jsToLower = v := by
    have h2 := List.map_congr_left hlow
    simpa using h2
  rw [hmap]
  refine List.filter_eq_self.mpr ?_
  intro c hcmem
  have hcmem' : c ∈ collapseGo false (jsTrim v) := hcmem
  rcases mem_collapseGo c false (jsTrim v) hcmem' with rfl | ⟨h2, _⟩
  · decide
  · exact hkeep c (mem_of_mem_jsTrim c v h2)

theorem street_norm_norm (s : List Char) :
    Street.normalizeString (Street.normalizeString s) =
      collapseWs (jsTrim (Street.normalizeString s)) :=
  street_norm_of_good _ (fun c hc => (street_output_good s c hc).1)
    (fun c hc => (street_output_good s c hc).2.1)

theorem street_triple_eq_double (s : List Char) :
    Street.normalizeString (Street.normalizeString (Street.normalizeString s)) =
      Street.normalizeString (Street.normalizeString s) := by
  have hu : Street.normalizeString (Street.normalizeString s) =
      collapseWs (jsTrim (Street.normalizeString s)) := street_norm_norm s
  have hnu : Street.normalizeString
        (Street.normalizeString (Street.normalizeString s)) =
      collapseWs (jsTrim (Street.normalizeString (Street.normalizeString s))) :=
    street_norm_norm (Street.normalizeString s)
  rw [hnu]
  have htrim : jsTrim (Street.normalizeString (Street.normalizeString s)) =
      Street.normalizeString (Street.normalizeString s) := by
    refine jsTrim_eq_self_of_ends _ ?_ ?_
    · intro c hc
      rw [hu] at hc
      cases hjt : jsTrim (Street.normalizeString s) with
      | nil =>
        rw [hjt] at hc
        exact absurd hc (by simp [collapseWs, collapseGo])
      | cons d ds =>
        rw [hjt] at hc
        have hdh : (jsTrim (Street.normalizeString s)).head? = some d := by
          rw [hjt]; rfl
        have hdw : isJsSpace d = false :=
          jsTrim_head_not_ws (Street.normalizeString s) d hdh
        have := collapseGo_head (d :: ds) d rfl hdw
        have hcd : c = d := by
          have hcc : (collapseWs (d :: ds)).head? = some c := hc
          have hcc' : (collapseGo false (d :: ds)).head? = some c := hcc
          rw [this] at hcc'
          simpa using hcc'.symm
        rw [hcd]
        exact hdw
    · intro c hc
      rw [hu] at hc
      cases hjt : jsTrim (Street.normalizeString s) with
      | nil =>
        rw [hjt] at hc
        exact absurd hc (by simp [collapseWs, collapseGo])
      | cons d ds =>
        rw [hjt] at hc
        have hsome : ((d :: ds).getLast?).isSome = true := by
          rw [List.getLast?_isSome]
          simp
        obtain ⟨e, he⟩ := Option.isSome_iff_exists.mp hsome
        have hew : isJsSpace e = false := by
          refine jsTrim_getLast_not_ws (Street.normalizeString s) e ?_
          rw [hjt]
          exact he
        have hy := collapseGo_getLast (d :: ds) e hew false he
        have hcc : (collapseGo false (d :: ds)).getLast? = some c := hc
        rw [hy] at hcc
        have hce : c = e := by simpa using hcc.symm
        rw [hce]
        exact hew
  rw [htrim, hu]
  have hcanon := canonAux_collapseGo (jsTrim (Street.normalizeString s)) false
  exact collapseGo_of_canonAux _ false hcanon

/-- C6 (amended): the compact normalizer is idempotent on every string; the
spaced normalizer is not idempotent in general (removing a punctuation
character can expose a leading, trailing or doubled space that only the next
pass cleans up), but it is idempotent from the second application onward:
applying it three times equals applying it twice. -/
theorem claimC6_idempotence_amended :
    (∀ s : List Char, Compact.normalizeString (Compact.normalizeString s) =
      Compact.normalizeString s) ∧
    (∀ s : List Char,
      Street.normalizeString (Street.normalizeString (Street.normalizeString s)) =
        Street.normalizeString (Street.normalizeString s)) := by
  constructor
  · intro s
    exact normalize_eq_self_of_stable _ (compact_output_stable s)
  · intro s
    exact street_triple_eq_double s

/-- C6 counterexample: on the string dot-space-a the spaced normalizer is not
idempotent — the first pass strips the dot and leaves a leading space that
only the second pass removes. -/
theorem claimC6_cex :
    Street.normalizeString (Street.normalizeString sDotSpaceA) ≠
      Street.normalizeString sDotSpaceA := by
  decide
